import Mathlib

set_option maxRecDepth 8000

/- Verification of the core of facundoolano/rpg-tui.

   Two iterations of the program exist in the repository: `src/main.rs` (the
   main iteration: bordered random-size maps, `Game::move_to`, the
   `to_world_coords` viewport mapper) and `tui/src/main.rs` (an earlier
   iteration: fixed-size map without walls, bound-guarded moves, and
   `Game::update_floor`).  Both are embedded below; the earlier iteration
   lives in the `Tui` namespace.

   Modelling conventions:
   - `u16`/`usize` values are `Nat`; where the source performs unchecked
     arithmetic that can overflow or underflow a `u16`, the wrap-around of a
     release build is modelled explicitly modulo 65536 (a debug build would
     panic at the same inputs, which equally falsifies any claim that the
     operation returns normally there).
   - `rand::thread_rng` is modelled by explicit seed inputs (`Gen`): each
     `gen_range(lo..hi)` draw maps a seed uniformly into the range.  The
     retry loop of `random_unocuppied_position` consumes a finite seed list
     and returns `none` when the list runs out; the Rust loop would keep
     drawing fresh randomness, so every terminating execution of the Rust
     code corresponds to some seed list here.
   - `HashMap<Position, Tile>` is modelled as an association list with
     unique keys: `insert` removes the previous binding for the key.  The
     hash map's iteration order is unspecified; the list order used here is
     one admissible order, and `find_tile` is only applied by the program to
     tile kinds that are unique per floor, where every order agrees.
   - Operations that can panic (`expect` on a missing ladder, slice indexing
     out of range, `usize` underflow of the floor index) or diverge (the
     placement retry loop running forever) return `Option`, with `none` for
     the abnormal outcome. -/

inductive Tile where
  | Wall
  | Ground
  | Character
  | LadderUp
  | LadderDown
  | Empty
  deriving DecidableEq, Repr

structure Position where
  x : Nat
  y : Nat
  deriving DecidableEq, Repr

/-- Lookup in the association-list model of `HashMap<Position, Tile>`. -/
def lookupTile : List (Position × Tile) → Position → Option Tile
  | [], _ => none
  | (q, t) :: rest, p => if p = q then some t else lookupTile rest p

/-- Remove every binding for key `p` (there is at most one in well-formed lists). -/
def removeKey (p : Position) : List (Position × Tile) → List (Position × Tile)
  | [] => []
  | (q, t) :: rest => if q = p then removeKey p rest else (q, t) :: removeKey p rest

/-- Embeds `HashMap::insert`: overwrite any existing binding at `p`. -/
def insertTile (ts : List (Position × Tile)) (p : Position) (t : Tile) :
    List (Position × Tile) :=
  (p, t) :: removeKey p ts

/-- Iteration behind `Map::find_tile`: first stored entry holding `expected`. -/
def findTileIn : List (Position × Tile) → Tile → Option Position
  | [], _ => none
  | (p, t) :: rest, expected => if t = expected then some p else findTileIn rest expected

structure Map where
  width : Nat
  height : Nat
  tiles : List (Position × Tile)
  deriving DecidableEq, Repr

/-- Embeds `Map::tile_at`: stored tile, defaulting to `Empty`. -/
def Map.tile_at (m : Map) (p : Position) : Tile :=
  (lookupTile m.tiles p).getD Tile.Empty

/-- Embeds `Map::find_tile`: position of the first tile of the given kind, if any. -/
def Map.find_tile (m : Map) (expected : Tile) : Option Position :=
  findTileIn m.tiles expected

/-- Seed inputs standing for the `thread_rng` draws of one `Map::new` call:
    one seed each for the width and height ranges, and seed lists for the
    two placement retry loops. -/
structure Gen where
  wSeed : Nat
  hSeed : Nat
  downSeeds : List Nat
  upSeeds : List Nat
  deriving DecidableEq, Repr

/-- Embeds `Map::random_unocuppied_position` (source spelling kept): draw positions
    until one holds no tile or a `Ground` tile.  Consumes two seeds per
    iteration; `none` models the loop never finding a free cell within the
    provided randomness. -/
def Map.random_unocuppied_position (m : Map) : List Nat → Option Position
  | sx :: sy :: rest =>
    let pos : Position := ⟨sx % m.width, sy % m.height⟩
    match lookupTile m.tiles pos with
    | none => some pos
    | some t => if t = Tile.Ground then some pos else m.random_unocuppied_position rest
  | _ => none

/-- Border-or-ground tile chosen by the generation loop of `Map::new`. -/
def borderTile (w h x y : Nat) : Tile :=
  if x = 0 ∨ x = w - 1 ∨ y = 0 ∨ y = h - 1 then Tile.Wall else Tile.Ground

/-- Inner loop `for y in 0..n` of `Map::new` at column `x`. -/
def colTiles (w h x : Nat) : Nat → List (Position × Tile)
  | 0 => []
  | n + 1 => (⟨x, n⟩, borderTile w h x n) :: colTiles w h x n

/-- Outer loop `for x in 0..n` of `Map::new`. -/
def gridTiles (w h : Nat) : Nat → List (Position × Tile)
  | 0 => []
  | n + 1 => colTiles w h n h ++ gridTiles w h n

/-- The fully filled rectangular grid inserted by `Map::new` (all keys are
    distinct, so the insertion order of the Rust loops is immaterial). -/
def baseTiles (w h : Nat) : List (Position × Tile) :=
  gridTiles w h w

def Map.MIN_WIDTH : Nat := 20
def Map.MAX_WIDTH : Nat := 100
def Map.MIN_HEIGHT : Nat := 10
def Map.MAX_HEIGHT : Nat := 50

/-- Embeds `Map::new`: random size within bounds, bordered rectangular room, a
    `LadderDown` at a random unoccupied cell, and for floors below the top
    also a `LadderUp` at a random unoccupied cell. -/
def Map.new (floor : Nat) (gen : Gen) : Option Map :=
  let width := Map.MIN_WIDTH + gen.wSeed % (Map.MAX_WIDTH - Map.MIN_WIDTH + 1)
  let height := Map.MIN_HEIGHT + gen.hSeed % (Map.MAX_HEIGHT - Map.MIN_HEIGHT + 1)
  let base : Map := ⟨width, height, baseTiles width height⟩
  match base.random_unocuppied_position gen.downSeeds with
  | none => none
  | some pd =>
    let withDown : Map := ⟨width, height, insertTile base.tiles pd Tile.LadderDown⟩
    if 0 < floor then
      match withDown.random_unocuppied_position gen.upSeeds with
      | none => none
      | some pu => some ⟨width, height, insertTile withDown.tiles pu Tile.LadderUp⟩
    else some withDown

structure Game where
  floor : Nat
  maps : List Map
  character_position : Position
  deriving DecidableEq, Repr

/-- Embeds `Game::new`: generate floor 0 and drop the character at a random
    unoccupied cell of it. -/
def Game.new (gen : Gen) (posSeeds : List Nat) : Option Game :=
  match Map.new 0 gen with
  | none => none
  | some first_map =>
    match first_map.random_unocuppied_position posSeeds with
    | none => none
    | some character_position => some ⟨0, [first_map], character_position⟩

/-- Embeds `Game::move_to`.  The `gen` argument supplies the randomness consumed if
    a new floor has to be generated.  `none` models a panic (missing ladder
    `expect`, out-of-range floor index, `usize` underflow of `floor`) or the
    generation retry loop exhausting its randomness. -/
def Game.move_to (g : Game) (dest : Position) (gen : Gen) : Option Game :=
  match g.maps[g.floor]? with
  | none => none
  | some m =>
    match m.tile_at dest with
    | Tile.LadderDown =>
      let floor := g.floor + 1
      match (if floor = g.maps.length
             then (Map.new floor gen).map (fun nm => g.maps ++ [nm])
             else some g.maps) with
      | none => none
      | some maps =>
        match maps[floor]? with
        | none => none
        | some m2 =>
          match m2.find_tile Tile.LadderUp with
          | none => none
          | some p => some ⟨floor, maps, p⟩
    | Tile.LadderUp =>
      if g.floor = 0 then none
      else
        match g.maps[g.floor - 1]? with
        | none => none
        | some m2 =>
          match m2.find_tile Tile.LadderDown with
          | none => none
          | some p => some ⟨g.floor - 1, g.maps, p⟩
    | Tile.Wall => some g
    | _ => some ⟨g.floor, g.maps, dest⟩

/-- Wrapping `u16` addition (release-build semantics). -/
def wrapAdd (a b : Nat) : Nat := (a + b) % 65536

/-- Wrapping `u16` subtraction (release-build semantics), for `b < 65536`. -/
def wrapSub (a b : Nat) : Nat := (a % 65536 + 65536 - b % 65536) % 65536

/-- Embeds `u16::checked_sub`. -/
def checkedSub (a b : Nat) : Option Nat := if b ≤ a then some (a - b) else none

/-- Embeds `Game::move_up`: the `y - 1` is an unchecked `u16` subtraction. -/
def Game.move_up (g : Game) (gen : Gen) : Option Game :=
  g.move_to ⟨g.character_position.x, wrapSub g.character_position.y 1⟩ gen

/-- Embeds `Game::move_down`. -/
def Game.move_down (g : Game) (gen : Gen) : Option Game :=
  g.move_to ⟨g.character_position.x, wrapAdd g.character_position.y 1⟩ gen

/-- Embeds `Game::move_left`: the `x - 1` is an unchecked `u16` subtraction. -/
def Game.move_left (g : Game) (gen : Gen) : Option Game :=
  g.move_to ⟨wrapSub g.character_position.x 1, g.character_position.y⟩ gen

/-- Embeds `Game::move_right`. -/
def Game.move_right (g : Game) (gen : Gen) : Option Game :=
  g.move_to ⟨wrapAdd g.character_position.x 1, g.character_position.y⟩ gen

/-- Embeds `to_world_coords`: viewport-to-world mapping.  The additions are
    unchecked `u16` additions and are modelled wrapping; the subtraction in
    the first branch is `checked_sub`; `map_width - view_width / 2` in the
    third guard cannot underflow because that branch has
    `map_width ≥ view_width`. -/
def to_world_coords (view_x player_x view_width map_width : Nat) : Option Nat :=
  if map_width < view_width then
    checkedSub (wrapAdd view_x (map_width / 2)) (view_width / 2)
  else if player_x ≤ view_width / 2 then
    some view_x
  else if map_width - view_width / 2 ≤ player_x then
    some (wrapSub (wrapAdd view_x map_width) view_width)
  else
    some (wrapSub (wrapAdd view_x player_x) (view_width / 2))

/-- Embeds the tui iteration `Map::random_position` — retry until the drawn cell
    holds no tile at all. -/
def Tui.random_position (m : Map) : List Nat → Option Position
  | sx :: sy :: rest =>
    let pos : Position := ⟨sx % m.width, sy % m.height⟩
    if (lookupTile m.tiles pos).isSome then Tui.random_position m rest
    else some pos
  | _ => none

/-- Embeds the tui iteration `Map::new` — fixed 80×20 map, no walls, a random
    `LadderDown`, and a `LadderUp` when `floor > 0`. -/
def Tui.mapNew (floor : Nat) (gen : Gen) : Option Map :=
  let base : Map := ⟨80, 20, []⟩
  match Tui.random_position base gen.downSeeds with
  | none => none
  | some pd =>
    let withDown : Map := ⟨80, 20, insertTile base.tiles pd Tile.LadderDown⟩
    if 0 < floor then
      match Tui.random_position withDown gen.upSeeds with
      | none => none
      | some pu => some ⟨80, 20, insertTile withDown.tiles pu Tile.LadderUp⟩
    else some withDown

/-- Embeds the tui iteration `Game::update_floor` — floor transition check on the
    tile stored at the character's (already moved) position. -/
def Tui.update_floor (g : Game) (gen : Gen) : Option Game :=
  match g.maps[g.floor]? with
  | none => none
  | some m =>
    match lookupTile m.tiles g.character_position with
    | some Tile.LadderUp =>
      if g.floor = 0 then none
      else
        match g.maps[g.floor - 1]? with
        | none => none
        | some m2 =>
          match m2.find_tile Tile.LadderDown with
          | none => none
          | some p => some ⟨g.floor - 1, g.maps, p⟩
    | some Tile.LadderDown =>
      let floor := g.floor + 1
      match (if floor = g.maps.length
             then (Tui.mapNew floor gen).map (fun nm => g.maps ++ [nm])
             else some g.maps) with
      | none => none
      | some maps =>
        match maps[floor]? with
        | none => none
        | some m2 =>
          match m2.find_tile Tile.LadderUp with
          | none => none
          | some p => some ⟨floor, maps, p⟩
    | _ => some g

/-- Embeds the tui iteration `Game::move_up` — guarded decrement, then the floor
    check. -/
def Tui.move_up (g : Game) (gen : Gen) : Option Game :=
  let g' : Game :=
    if 0 < g.character_position.y then
      ⟨g.floor, g.maps, ⟨g.character_position.x, g.character_position.y - 1⟩⟩
    else g
  Tui.update_floor g' gen

/-- Embeds the tui iteration `Game::move_left` — guarded decrement, then the floor
    check. -/
def Tui.move_left (g : Game) (gen : Gen) : Option Game :=
  let g' : Game :=
    if 0 < g.character_position.x then
      ⟨g.floor, g.maps, ⟨g.character_position.x - 1, g.character_position.y⟩⟩
    else g
  Tui.update_floor g' gen

/- Invariant predicates and reachability. -/

def Map.InBounds (m : Map) (p : Position) : Prop :=
  p.x < m.width ∧ p.y < m.height

def Map.OnBorder (m : Map) (p : Position) : Prop :=
  p.x = 0 ∨ p.x = m.width - 1 ∨ p.y = 0 ∨ p.y = m.height - 1

/-- Strictly inside the border walls. -/
def Map.Interior (m : Map) (p : Position) : Prop :=
  1 ≤ p.x ∧ p.x + 1 < m.width ∧ 1 ≤ p.y ∧ p.y + 1 < m.height

/-- The floor invariant established by `Map::new` for depth `d`: size within
    the configured bounds, walls exactly on the border, walkable interior,
    a unique `LadderDown`, and a unique `LadderUp` exactly when `0 < d`,
    both found by `find_tile`. -/
def Map.GoodMap (d : Nat) (m : Map) : Prop :=
  Map.MIN_WIDTH ≤ m.width ∧ m.width ≤ Map.MAX_WIDTH ∧
  Map.MIN_HEIGHT ≤ m.height ∧ m.height ≤ Map.MAX_HEIGHT ∧
  (∀ p : Position, ¬m.InBounds p → m.tile_at p = Tile.Empty) ∧
  (∀ p : Position, m.InBounds p → m.OnBorder p → m.tile_at p = Tile.Wall) ∧
  (∀ p : Position, m.InBounds p → ¬m.OnBorder p →
    m.tile_at p = Tile.Ground ∨ m.tile_at p = Tile.LadderDown ∨
      m.tile_at p = Tile.LadderUp) ∧
  (∃ pd, m.find_tile Tile.LadderDown = some pd ∧ m.tile_at pd = Tile.LadderDown ∧
    ∀ r, m.tile_at r = Tile.LadderDown → r = pd) ∧
  (d = 0 → (∀ r, m.tile_at r ≠ Tile.LadderUp) ∧ m.find_tile Tile.LadderUp = none) ∧
  (0 < d → ∃ pu, m.find_tile Tile.LadderUp = some pu ∧ m.tile_at pu = Tile.LadderUp ∧
    ∀ r, m.tile_at r = Tile.LadderUp → r = pu)

/-- The navigation invariant: current floor index in range, every stored
    floor satisfies its generation invariant, and the character stands
    strictly inside the border of the current floor. -/
def Game.Good (g : Game) : Prop :=
  g.floor < g.maps.length ∧
  (∀ d m, g.maps[d]? = some m → Map.GoodMap d m) ∧
  (∃ M, g.maps[g.floor]? = some M ∧ M.Interior g.character_position)

/-- States reachable by `Game::new` followed by any sequence of the four
    move operations, with arbitrary randomness at each step. -/
inductive Game.Reachable : Game → Prop where
  | init (gen : Gen) (posSeeds : List Nat) (g : Game) :
      Game.new gen posSeeds = some g → Game.Reachable g
  | up (g : Game) (gen : Gen) (g' : Game) :
      Game.Reachable g → g.move_up gen = some g' → Game.Reachable g'
  | down (g : Game) (gen : Gen) (g' : Game) :
      Game.Reachable g → g.move_down gen = some g' → Game.Reachable g'
  | left (g : Game) (gen : Gen) (g' : Game) :
      Game.Reachable g → g.move_left gen = some g' → Game.Reachable g'
  | right (g : Game) (gen : Gen) (g' : Game) :
      Game.Reachable g → g.move_right gen = some g' → Game.Reachable g'

/- Concrete instances used by the closed witnesses and counterexamples.
   With all-zero size seeds `Map::new` picks a 20-by-10 map; placement seeds
   `[1, 1]` put the `LadderDown` at `(1, 1)` and `[2, 2]` put the `LadderUp`
   at `(2, 2)`. -/

def genC : Gen := ⟨0, 0, [1, 1], [2, 2]⟩

def mC0 : Map := (Map.new 0 genC).getD ⟨0, 0, []⟩

def mC1 : Map := (Map.new 1 genC).getD ⟨0, 0, []⟩

def gameC : Game := (Game.new genC [3, 3]).getD ⟨0, [], ⟨0, 0⟩⟩

def game1C : Game := (gameC.move_to ⟨1, 1⟩ genC).getD ⟨0, [], ⟨0, 0⟩⟩

def game2C : Game := (game1C.move_to ⟨2, 2⟩ genC).getD ⟨0, [], ⟨0, 0⟩⟩

/-- A floor with no ladders at all, violating the generation invariant. -/
def mBad : Map := ⟨20, 10, baseTiles 20 10⟩

def gameBad : Game := ⟨0, [mC0, mBad], ⟨3, 3⟩⟩

def tuiGenC : Gen := ⟨0, 0, [1, 1], []⟩

def tuiMapC : Map := (Tui.mapNew 0 tuiGenC).getD ⟨0, 0, []⟩

def tuiGameC : Game := ⟨0, [tuiMapC], ⟨0, 0⟩⟩

/-- A state of the main iteration with the character at `y = 0` (not
    reachable by play, but a legal value of the state type). -/
def srcCexGame : Game := ⟨0, [mC0], ⟨1, 0⟩⟩

/- Coordinate mapper claims. -/

/-- C2 (counterexample).  The claim asserts that whenever
    `map_length ≤ view_length` the mapper returns
    `view_coordinate + map_length/2 - view_length/2`, off-map exactly on
    underflow of that subtraction.  At `view_x = 60000`, `view_width = 65535`,
    `map_width = 20000` the claimed subtraction does not underflow
    (`65535/2 = 32767 ≤ 60000 + 10000`), yet the mapper's `u16` addition
    `view_x + map_width / 2` wraps (a debug build panics) and `checked_sub`
    then fails, so the mapper reports off-map. -/
theorem C2_counterexample :
    to_world_coords 60000 0 65535 20000 = none ∧
    65535 / 2 ≤ 60000 + 20000 / 2 := by
  constructor
  · decide
  · decide

/-- C2 (amended).  For `u16` inputs with `map_length ≤ view_length`, and
    provided the addition `view_coordinate + map_length/2` does not overflow
    `u16`, the mapper returns exactly the checked subtraction
    `(view_coordinate + map_length/2) - view_length/2`: a value when
    `view_length/2 ≤ view_coordinate + map_length/2` and off-map otherwise.
    This also covers the `map_length = view_length` case, which the code
    routes through the later branches but which computes the same result. -/
theorem C2_centering (view_x player_x view_width map_width : Nat)
    (hvx : view_x < 65536) (hvw : view_width < 65536)
    (hmap : map_width ≤ view_width)
    (hnoflow : view_x + map_width / 2 < 65536) :
    to_world_coords view_x player_x view_width map_width =
      checkedSub (view_x + map_width / 2) (view_width / 2) := by
  unfold to_world_coords
  by_cases h1 : map_width < view_width
  · rw [if_pos h1]
    unfold wrapAdd
    rw [Nat.mod_eq_of_lt hnoflow]
  · have heq : map_width = view_width := le_antisymm hmap (not_lt.mp h1)
    subst heq
    rw [if_neg h1]
    have hrhs : checkedSub (view_x + map_width / 2) (map_width / 2) = some view_x := by
      unfold checkedSub
      rw [if_pos (by omega)]
      congr 1
      omega
    rw [hrhs]
    by_cases h2 : player_x ≤ map_width / 2
    · rw [if_pos h2]
    · rw [if_neg h2]
      rw [if_pos (by omega)]
      congr 1
      unfold wrapSub wrapAdd
      omega

theorem C2_centering_witness :
    ((30 : Nat) < 65536 ∧ (40 : Nat) < 65536 ∧ (25 : Nat) ≤ 40 ∧
      30 + 25 / 2 < 65536) ∧
    to_world_coords 30 99 40 25 = checkedSub (30 + 25 / 2) (40 / 2) :=
  ⟨by decide, C2_centering 30 99 40 25 (by decide) (by decide) (by decide) (by decide)⟩

/-- C8.  The four boundary vectors of the coordinate mapper: with
    `map_length = 10, view_length = 20` every view coordinate in `[0, 20)`
    resolves through rule 1 (the centering formula with checked subtraction),
    independently of the player coordinate; and the three concrete vectors of
    rules 2, 3 and 4 produce `0`, `99` and `50` respectively. -/
theorem C8_boundary_vectors :
    (∀ view_x, view_x < 20 → ∀ player_x : Nat,
        to_world_coords view_x player_x 20 10 =
          checkedSub (view_x + 10 / 2) (20 / 2)) ∧
    to_world_coords 0 5 20 100 = some 0 ∧
    to_world_coords 19 95 20 100 = some 99 ∧
    to_world_coords 10 50 20 100 = some 50 := by
  refine ⟨?_, by decide, by decide, by decide⟩
  intro view_x hvx player_x
  unfold to_world_coords
  rw [if_pos (by omega)]
  unfold wrapAdd
  congr 1
  omega

theorem C8_boundary_vectors_witness :
    to_world_coords 3 7 20 10 = checkedSub (3 + 10 / 2) (20 / 2) :=
  C8_boundary_vectors.1 3 (by decide) 7

/- C1: behaviour of move Up at y = 0 and move Left at x = 0. -/

/-- C1 (counterexample).  In the main iteration `Game::move_up` computes
    `y - 1` without a guard: at a state with `y = 0` the `u16` subtraction
    wraps to 65535 (a debug build panics), the wrapped destination holds no
    tile, and the character position is mutated to it — the move is neither
    a no-op nor free of wrap-around. -/
theorem C1_counterexample :
    Game.move_up srcCexGame genC ≠ some srcCexGame ∧
    (Game.move_up srcCexGame genC).map (fun g => g.character_position.y) =
      some 65535 := by
  constructor
  · decide
  · decide

/-- C1 (amended).  Only the earlier `tui` iteration guards the decrements:
    there, move Up at `y = 0` and move Left at `x = 0` leave the state
    unchanged provided the tile stored at the character's current position is
    not a ladder (the trailing floor check of `update_floor` fires even on a
    blocked move).  In the main iteration the decrement is unguarded and
    wraps, so the no-op property only holds for states where the interior
    invariant rules `y = 0` and `x = 0` out. -/
theorem C1_guarded_noop (g : Game) (gen : Gen) (m : Map)
    (hm : g.maps[g.floor]? = some m)
    (hup : lookupTile m.tiles g.character_position ≠ some Tile.LadderUp)
    (hdown : lookupTile m.tiles g.character_position ≠ some Tile.LadderDown) :
    (g.character_position.y = 0 → Tui.move_up g gen = some g) ∧
    (g.character_position.x = 0 → Tui.move_left g gen = some g) := by
  constructor
  · intro hy
    have h0 : ¬0 < g.character_position.y := by omega
    simp only [Tui.move_up, if_neg h0]
    simp only [Tui.update_floor, hm]
  · intro hx
    have h0 : ¬0 < g.character_position.x := by omega
    simp only [Tui.move_left, if_neg h0]
    simp only [Tui.update_floor, hm]

theorem C1_guarded_noop_witness :
    tuiGameC.maps[tuiGameC.floor]? = some tuiMapC ∧
    tuiGameC.character_position.y = 0 ∧
    Tui.move_up tuiGameC tuiGenC = some tuiGameC :=
  ⟨by decide, by decide,
    (C1_guarded_noop tuiGameC tuiGenC tuiMapC (by decide) (by decide)
      (by decide)).1 (by decide)⟩

/- Association-list and grid lookup lemmas. -/

theorem lookupTile_append (l1 l2 : List (Position × Tile)) (p : Position) :
    lookupTile (l1 ++ l2) p =
      match lookupTile l1 p with
      | some t => some t
      | none => lookupTile l2 p := by
  induction l1 with
  | nil => rfl
  | cons e rest ih =>
    obtain ⟨q, t⟩ := e
    by_cases hpq : p = q
    · simp [lookupTile, hpq]
    · simp [lookupTile, hpq, ih]

theorem lookupTile_colTiles (w h x n : Nat) (p : Position) :
    lookupTile (colTiles w h x n) p =
      if p.x = x ∧ p.y < n then some (borderTile w h x p.y) else none := by
  obtain ⟨px, py⟩ := p
  induction n with
  | zero => simp [colTiles, lookupTile]
  | succ n ih =>
    simp only [colTiles, lookupTile, ih, Position.mk.injEq]
    by_cases hx : px = x
    · subst hx
      simp only [true_and]
      by_cases hy : py = n
      · subst hy
        simp
      · rw [if_neg hy]
        by_cases hlt : py < n
        · rw [if_pos hlt, if_pos (by omega)]
        · rw [if_neg hlt, if_neg (by omega)]
    · simp [hx]

theorem lookupTile_gridTiles (w h n : Nat) (p : Position) :
    lookupTile (gridTiles w h n) p =
      if p.x < n ∧ p.y < h then some (borderTile w h p.x p.y) else none := by
  obtain ⟨px, py⟩ := p
  induction n with
  | zero => simp [gridTiles, lookupTile]
  | succ n ih =>
    simp only [gridTiles, lookupTile_append, lookupTile_colTiles, ih]
    by_cases hx : px = n
    · subst hx
      by_cases hy : py < h
      · simp [hy]
      · simp [hy]
    · have hcol : ¬(px = n ∧ py < h) := fun hc => hx hc.1
      rw [if_neg hcol]
      by_cases hx2 : px < n
      · by_cases hy : py < h
        · rw [if_pos ⟨hx2, hy⟩, if_pos ⟨by omega, hy⟩]
        · rw [if_neg (fun hc => hy hc.2), if_neg (fun hc => hy hc.2)]
      · rw [if_neg (fun hc => hx2 hc.1), if_neg (fun hc => absurd hc.1 (by omega))]

theorem lookupTile_baseTiles (w h : Nat) (p : Position) :
    lookupTile (baseTiles w h) p =
      if p.x < w ∧ p.y < h then some (borderTile w h p.x p.y) else none :=
  lookupTile_gridTiles w h w p

theorem lookupTile_removeKey (a : Position) (l : List (Position × Tile))
    (p : Position) :
    lookupTile (removeKey a l) p = if p = a then none else lookupTile l p := by
  induction l with
  | nil => simp [removeKey, lookupTile]
  | cons e rest ih =>
    obtain ⟨q, t⟩ := e
    simp only [removeKey]
    by_cases hqa : q = a
    · subst hqa
      rw [if_pos rfl, ih]
      by_cases hpq : p = q
      · simp [hpq]
      · simp [lookupTile, hpq]
    · rw [if_neg hqa]
      by_cases hpq : p = q
      · subst hpq
        simp [lookupTile, hqa]
      · simp [lookupTile, hpq, ih]

theorem lookupTile_insertTile (l : List (Position × Tile)) (a : Position)
    (t : Tile) (p : Position) :
    lookupTile (insertTile l a t) p = if p = a then some t else lookupTile l p := by
  by_cases hpa : p = a
  · simp [insertTile, lookupTile, hpa]
  · simp [insertTile, lookupTile, hpa, lookupTile_removeKey]

theorem mem_removeKey (a : Position) (l : List (Position × Tile))
    (e : Position × Tile) (h : e ∈ removeKey a l) : e ∈ l := by
  induction l with
  | nil => simp [removeKey] at h
  | cons f rest ih =>
    obtain ⟨q, t⟩ := f
    simp only [removeKey] at h
    by_cases hqa : q = a
    · rw [if_pos hqa] at h
      exact List.mem_cons_of_mem _ (ih h)
    · rw [if_neg hqa] at h
      rcases List.mem_cons.mp h with h1 | h2
      · exact List.mem_cons.mpr (Or.inl h1)
      · exact List.mem_cons_of_mem _ (ih h2)

theorem borderTile_wall_or_ground (w h x y : Nat) :
    borderTile w h x y = Tile.Wall ∨ borderTile w h x y = Tile.Ground := by
  unfold borderTile
  split_ifs
  · exact Or.inl rfl
  · exact Or.inr rfl

theorem mem_colTiles_val (w h x n : Nat) (e : Position × Tile)
    (h' : e ∈ colTiles w h x n) : e.2 = Tile.Wall ∨ e.2 = Tile.Ground := by
  induction n with
  | zero => simp [colTiles] at h'
  | succ n ih =>
    simp only [colTiles, List.mem_cons] at h'
    rcases h' with h1 | h2
    · rw [h1]
      exact borderTile_wall_or_ground w h x n
    · exact ih h2

theorem mem_gridTiles_val (w h n : Nat) (e : Position × Tile)
    (h' : e ∈ gridTiles w h n) : e.2 = Tile.Wall ∨ e.2 = Tile.Ground := by
  induction n with
  | zero => simp [gridTiles] at h'
  | succ n ih =>
    simp only [gridTiles, List.mem_append] at h'
    rcases h' with h1 | h2
    · exact mem_colTiles_val w h n h e h1
    · exact ih h2

theorem findTileIn_eq_none (l : List (Position × Tile)) (t : Tile)
    (h : ∀ e ∈ l, e.2 ≠ t) : findTileIn l t = none := by
  induction l with
  | nil => rfl
  | cons e rest ih =>
    obtain ⟨q, s⟩ := e
    simp only [findTileIn]
    rw [if_neg (h (q, s) (List.mem_cons_self _ _))]
    exact ih fun f hf => h f (List.mem_cons_of_mem _ hf)

/- Specification of the random-placement loop and the generated floors. -/

theorem rand_spec (m : Map) (hw : 0 < m.width) (hh : 0 < m.height) :
    ∀ (s : List Nat) (p : Position),
      m.random_unocuppied_position s = some p →
      (lookupTile m.tiles p = none ∨ lookupTile m.tiles p = some Tile.Ground) ∧
        p.x < m.width ∧ p.y < m.height
  | sx :: sy :: rest, p, h => by
    simp only [Map.random_unocuppied_position] at h
    split at h
    · rename_i hl
      obtain rfl : (⟨sx % m.width, sy % m.height⟩ : Position) = p := Option.some.inj h
      exact ⟨Or.inl hl, Nat.mod_lt _ hw, Nat.mod_lt _ hh⟩
    · rename_i t hl
      split at h
      · rename_i ht
        subst ht
        obtain rfl : (⟨sx % m.width, sy % m.height⟩ : Position) = p := Option.some.inj h
        exact ⟨Or.inr hl, Nat.mod_lt _ hw, Nat.mod_lt _ hh⟩
      · exact rand_spec m hw hh rest p h
  | [], p, h => by simp [Map.random_unocuppied_position] at h
  | [sx], p, h => by simp [Map.random_unocuppied_position] at h

theorem borderTile_eq_wall (w h x y : Nat)
    (hb : x = 0 ∨ x = w - 1 ∨ y = 0 ∨ y = h - 1) :
    borderTile w h x y = Tile.Wall := by
  unfold borderTile
  rw [if_pos hb]

theorem borderTile_eq_ground (w h x y : Nat)
    (hb : ¬(x = 0 ∨ x = w - 1 ∨ y = 0 ∨ y = h - 1)) :
    borderTile w h x y = Tile.Ground := by
  unfold borderTile
  rw [if_neg hb]

theorem borderTile_ne_ladders (w h x y : Nat) :
    borderTile w h x y ≠ Tile.LadderDown ∧ borderTile w h x y ≠ Tile.LadderUp := by
  rcases borderTile_wall_or_ground w h x y with hw | hg
  · rw [hw]
    exact ⟨by decide, by decide⟩
  · rw [hg]
    exact ⟨by decide, by decide⟩

theorem goodMap_floor0 (W H : Nat) (pd : Position)
    (hWlo : Map.MIN_WIDTH ≤ W) (hWhi : W ≤ Map.MAX_WIDTH)
    (hHlo : Map.MIN_HEIGHT ≤ H) (hHhi : H ≤ Map.MAX_HEIGHT)
    (hpdx : pd.x < W) (hpdy : pd.y < H)
    (hpdNB : ¬(pd.x = 0 ∨ pd.x = W - 1 ∨ pd.y = 0 ∨ pd.y = H - 1)) :
    Map.GoodMap 0 ⟨W, H, insertTile (baseTiles W H) pd Tile.LadderDown⟩ := by
  have htile : ∀ p : Position,
      Map.tile_at ⟨W, H, insertTile (baseTiles W H) pd Tile.LadderDown⟩ p =
        if p = pd then Tile.LadderDown
        else if p.x < W ∧ p.y < H then borderTile W H p.x p.y else Tile.Empty := by
    intro p
    simp only [Map.tile_at, lookupTile_insertTile, lookupTile_baseTiles]
    by_cases h1 : p = pd
    · simp [h1]
    · by_cases h2 : p.x < W ∧ p.y < H
      · simp [h1, h2]
      · simp [h1, h2]
  unfold Map.GoodMap
  refine ⟨hWlo, hWhi, hHlo, hHhi, ?_, ?_, ?_, ?_, ?_, ?_⟩
  · intro p hp
    simp only [Map.InBounds] at hp
    have hne : p ≠ pd := fun hc => hp (by rw [hc]; exact ⟨hpdx, hpdy⟩)
    rw [htile p, if_neg hne, if_neg hp]
  · intro p hin hb
    simp only [Map.InBounds] at hin
    simp only [Map.OnBorder] at hb
    have hne : p ≠ pd := fun hc => hpdNB (hc ▸ hb)
    rw [htile p, if_neg hne, if_pos hin]
    exact borderTile_eq_wall W H p.x p.y hb
  · intro p hin hb
    simp only [Map.InBounds] at hin
    simp only [Map.OnBorder] at hb
    rw [htile p]
    by_cases h1 : p = pd
    · rw [if_pos h1]
      exact Or.inr (Or.inl rfl)
    · rw [if_neg h1, if_pos hin]
      exact Or.inl (borderTile_eq_ground W H p.x p.y hb)
  · refine ⟨pd, ?_, ?_, ?_⟩
    · simp [Map.find_tile, insertTile, findTileIn]
    · rw [htile pd, if_pos rfl]
    · intro r hr
      rw [htile r] at hr
      by_cases h1 : r = pd
      · exact h1
      · rw [if_neg h1] at hr
        by_cases h2 : r.x < W ∧ r.y < H
        · rw [if_pos h2] at hr
          exact absurd hr (borderTile_ne_ladders W H r.x r.y).1
        · rw [if_neg h2] at hr
          exact absurd hr (by decide)
  · intro hd0
    constructor
    · intro r hr
      rw [htile r] at hr
      by_cases h1 : r = pd
      · rw [if_pos h1] at hr
        exact absurd hr (by decide)
      · rw [if_neg h1] at hr
        by_cases h2 : r.x < W ∧ r.y < H
        · rw [if_pos h2] at hr
          exact absurd hr (borderTile_ne_ladders W H r.x r.y).2
        · rw [if_neg h2] at hr
          exact absurd hr (by decide)
    · unfold Map.find_tile
      simp only [insertTile, findTileIn]
      rw [if_neg (by decide)]
      apply findTileIn_eq_none
      intro e he
      rcases mem_gridTiles_val W H W e (mem_removeKey pd _ e he) with hw | hg
      · rw [hw]
        decide
      · rw [hg]
        decide
  · intro hd
    exact absurd hd (by omega)

theorem findTileIn_cons_ne (q : Position) (t e : Tile)
    (rest : List (Position × Tile)) (h : t ≠ e) :
    findTileIn ((q, t) :: rest) e = findTileIn rest e := by
  simp [findTileIn, h]

theorem findTileIn_cons_eq (q : Position) (t : Tile)
    (rest : List (Position × Tile)) :
    findTileIn ((q, t) :: rest) t = some q := by
  simp [findTileIn]

theorem removeKey_cons_ne (a q : Position) (t : Tile)
    (rest : List (Position × Tile)) (h : q ≠ a) :
    removeKey a ((q, t) :: rest) = (q, t) :: removeKey a rest := by
  simp [removeKey, h]

theorem goodMap_floorPos (d W H : Nat) (pd pu : Position) (hd : 0 < d)
    (hWlo : Map.MIN_WIDTH ≤ W) (hWhi : W ≤ Map.MAX_WIDTH)
    (hHlo : Map.MIN_HEIGHT ≤ H) (hHhi : H ≤ Map.MAX_HEIGHT)
    (hpdx : pd.x < W) (hpdy : pd.y < H)
    (hpdNB : ¬(pd.x = 0 ∨ pd.x = W - 1 ∨ pd.y = 0 ∨ pd.y = H - 1))
    (hpux : pu.x < W) (hpuy : pu.y < H)
    (hpuNB : ¬(pu.x = 0 ∨ pu.x = W - 1 ∨ pu.y = 0 ∨ pu.y = H - 1))
    (hne : pu ≠ pd) :
    Map.GoodMap d
      ⟨W, H,
        insertTile (insertTile (baseTiles W H) pd Tile.LadderDown) pu
          Tile.LadderUp⟩ := by
  have htile : ∀ p : Position,
      Map.tile_at
          ⟨W, H,
            insertTile (insertTile (baseTiles W H) pd Tile.LadderDown) pu
              Tile.LadderUp⟩ p =
        if p = pu then Tile.LadderUp
        else if p = pd then Tile.LadderDown
        else if p.x < W ∧ p.y < H then borderTile W H p.x p.y else Tile.Empty := by
    intro p
    have hne' : pd ≠ pu := fun hc => hne hc.symm
    simp only [Map.tile_at, lookupTile_insertTile, lookupTile_baseTiles]
    by_cases h1 : p = pu
    · simp [h1]
    · by_cases h2 : p = pd
      · simp [h1, h2, hne']
      · by_cases h3 : p.x < W ∧ p.y < H
        · simp [h1, h2, h3]
        · simp [h1, h2, h3]
  unfold Map.GoodMap
  refine ⟨hWlo, hWhi, hHlo, hHhi, ?_, ?_, ?_, ?_, ?_, ?_⟩
  · intro p hp
    simp only [Map.InBounds] at hp
    have hne1 : p ≠ pu := fun hc => hp (by rw [hc]; exact ⟨hpux, hpuy⟩)
    have hne2 : p ≠ pd := fun hc => hp (by rw [hc]; exact ⟨hpdx, hpdy⟩)
    rw [htile p, if_neg hne1, if_neg hne2, if_neg hp]
  · intro p hin hb
    simp only [Map.InBounds] at hin
    simp only [Map.OnBorder] at hb
    have hne1 : p ≠ pu := fun hc => hpuNB (hc ▸ hb)
    have hne2 : p ≠ pd := fun hc => hpdNB (hc ▸ hb)
    rw [htile p, if_neg hne1, if_neg hne2, if_pos hin]
    exact borderTile_eq_wall W H p.x p.y hb
  · intro p hin hb
    simp only [Map.InBounds] at hin
    simp only [Map.OnBorder] at hb
    rw [htile p]
    by_cases h1 : p = pu
    · rw [if_pos h1]
      exact Or.inr (Or.inr rfl)
    · rw [if_neg h1]
      by_cases h2 : p = pd
      · rw [if_pos h2]
        exact Or.inr (Or.inl rfl)
      · rw [if_neg h2, if_pos hin]
        exact Or.inl (borderTile_eq_ground W H p.x p.y hb)
  · refine ⟨pd, ?_, ?_, ?_⟩
    · unfold Map.find_tile
      simp only [insertTile]
      rw [findTileIn_cons_ne pu Tile.LadderUp Tile.LadderDown _ (by decide),
        removeKey_cons_ne pu pd Tile.LadderDown _ (fun hc => hne hc.symm),
        findTileIn_cons_eq]
    · rw [htile pd, if_neg (fun hc => hne hc.symm), if_pos rfl]
    · intro r hr
      rw [htile r] at hr
      by_cases h1 : r = pu
      · rw [if_pos h1] at hr
        exact absurd hr (by decide)
      · rw [if_neg h1] at hr
        by_cases h2 : r = pd
        · exact h2
        · rw [if_neg h2] at hr
          by_cases h3 : r.x < W ∧ r.y < H
          · rw [if_pos h3] at hr
            exact absurd hr (borderTile_ne_ladders W H r.x r.y).1
          · rw [if_neg h3] at hr
            exact absurd hr (by decide)
  · intro hd0
    exact absurd hd (by omega)
  · intro hd2
    refine ⟨pu, ?_, ?_, ?_⟩
    · unfold Map.find_tile
      simp only [insertTile]
      rw [findTileIn_cons_eq]
    · rw [htile pu, if_pos rfl]
    · intro r hr
      rw [htile r] at hr
      by_cases h1 : r = pu
      · exact h1
      · rw [if_neg h1] at hr
        by_cases h2 : r = pd
        · rw [if_pos h2] at hr
          exact absurd hr (by decide)
        · rw [if_neg h2] at hr
          by_cases h3 : r.x < W ∧ r.y < H
          · rw [if_pos h3] at hr
            exact absurd hr (borderTile_ne_ladders W H r.x r.y).2
          · rw [if_neg h3] at hr
            exact absurd hr (by decide)

theorem ground_not_border (W H : Nat) (p : Position)
    (hpx : p.x < W) (hpy : p.y < H)
    (hlook : lookupTile (baseTiles W H) p = none ∨
      lookupTile (baseTiles W H) p = some Tile.Ground) :
    ¬(p.x = 0 ∨ p.x = W - 1 ∨ p.y = 0 ∨ p.y = H - 1) := by
  intro hc
  rcases hlook with h1 | h1
  · rw [lookupTile_baseTiles, if_pos ⟨hpx, hpy⟩] at h1
    exact Option.noConfusion h1
  · rw [lookupTile_baseTiles, if_pos ⟨hpx, hpy⟩] at h1
    have h2 := Option.some.inj h1
    rw [borderTile_eq_wall W H p.x p.y hc] at h2
    exact Tile.noConfusion h2

/-- Every successfully generated floor satisfies the floor invariant. -/
theorem Map.new_good (floor : Nat) (gen : Gen) (m : Map)
    (h : Map.new floor gen = some m) : Map.GoodMap floor m := by
  simp only [Map.new] at h
  set W := Map.MIN_WIDTH + gen.wSeed % (Map.MAX_WIDTH - Map.MIN_WIDTH + 1) with hW
  set H := Map.MIN_HEIGHT + gen.hSeed % (Map.MAX_HEIGHT - Map.MIN_HEIGHT + 1) with hH
  have hWlo : Map.MIN_WIDTH ≤ W := by
    rw [hW]
    unfold Map.MIN_WIDTH Map.MAX_WIDTH
    omega
  have hWhi : W ≤ Map.MAX_WIDTH := by
    rw [hW]
    unfold Map.MIN_WIDTH Map.MAX_WIDTH
    omega
  have hHlo : Map.MIN_HEIGHT ≤ H := by
    rw [hH]
    unfold Map.MIN_HEIGHT Map.MAX_HEIGHT
    omega
  have hHhi : H ≤ Map.MAX_HEIGHT := by
    rw [hH]
    unfold Map.MIN_HEIGHT Map.MAX_HEIGHT
    omega
  have hW0 : 0 < W := lt_of_lt_of_le (by norm_num [Map.MIN_WIDTH]) hWlo
  have hH0 : 0 < H := lt_of_lt_of_le (by norm_num [Map.MIN_HEIGHT]) hHlo
  split at h
  · exact Option.noConfusion h
  · rename_i pd hpd
    obtain ⟨hpdLook, hpdx, hpdy⟩ :=
      rand_spec ⟨W, H, baseTiles W H⟩ hW0 hH0 gen.downSeeds pd hpd
    have hpdNB := ground_not_border W H pd hpdx hpdy hpdLook
    split at h
    · rename_i hf
      split at h
      · exact Option.noConfusion h
      · rename_i pu hpu
        obtain rfl :
            (⟨W, H,
              insertTile (insertTile (baseTiles W H) pd Tile.LadderDown) pu
                Tile.LadderUp⟩ : Map) = m := Option.some.inj h
        obtain ⟨hpuLook, hpux, hpuy⟩ :=
          rand_spec ⟨W, H, insertTile (baseTiles W H) pd Tile.LadderDown⟩ hW0 hH0
            gen.upSeeds pu hpu
        rw [lookupTile_insertTile] at hpuLook
        have hne : pu ≠ pd := by
          intro hc
          rw [if_pos hc] at hpuLook
          rcases hpuLook with h1 | h1
          · exact Option.noConfusion h1
          · exact Tile.noConfusion (Option.some.inj h1)
        rw [if_neg hne] at hpuLook
        have hpuNB := ground_not_border W H pu hpux hpuy hpuLook
        exact goodMap_floorPos floor W H pd pu hf hWlo hWhi hHlo hHhi hpdx hpdy
          hpdNB hpux hpuy hpuNB hne
    · rename_i hf
      obtain rfl :
          (⟨W, H, insertTile (baseTiles W H) pd Tile.LadderDown⟩ : Map) = m :=
        Option.some.inj h
      have hf0 : floor = 0 := by omega
      subst hf0
      exact goodMap_floor0 W H pd hWlo hWhi hHlo hHhi hpdx hpdy hpdNB

theorem goodMap_ladder_pos (d : Nat) (m : Map) (hg : Map.GoodMap d m)
    (p : Position) (t : Tile) (ht : m.tile_at p = t) (htW : t ≠ Tile.Wall)
    (htE : t ≠ Tile.Empty) : m.InBounds p ∧ ¬m.OnBorder p := by
  obtain ⟨-, -, -, -, hout, hwall, -, -, -, -⟩ := hg
  have hin : m.InBounds p := by
    by_contra hc
    rw [hout p hc] at ht
    exact htE ht.symm
  refine ⟨hin, fun hb => ?_⟩
  rw [hwall p hin hb] at ht
  exact htW ht.symm

theorem goodMap_interior (d : Nat) (m : Map) (hg : Map.GoodMap d m)
    (p : Position) (hin : m.InBounds p) (hnb : ¬m.OnBorder p) : m.Interior p := by
  obtain ⟨hWlo, -, hHlo, -, -, -, -, -, -, -⟩ := hg
  unfold Map.MIN_WIDTH at hWlo
  unfold Map.MIN_HEIGHT at hHlo
  unfold Map.InBounds at hin
  unfold Map.OnBorder at hnb
  unfold Map.Interior
  omega

/-- C3.  Every floor produced by the generator, at any depth `d`: border
    cells hold `Wall`; non-border in-bounds cells are walkable (not `Wall`);
    exactly one `LadderDown` exists; a `LadderUp` exists if and only if
    `d > 0`; and the ladders sit on non-border (hence non-`Wall`) cells and
    never coincide with each other. -/
theorem C3_floor_invariant (d : Nat) (gen : Gen) (m : Map)
    (h : Map.new d gen = some m) :
    (∀ p : Position, p.x < m.width → p.y < m.height →
        (p.x = 0 ∨ p.x = m.width - 1 ∨ p.y = 0 ∨ p.y = m.height - 1) →
        m.tile_at p = Tile.Wall) ∧
    (∀ p : Position, p.x < m.width → p.y < m.height →
        ¬(p.x = 0 ∨ p.x = m.width - 1 ∨ p.y = 0 ∨ p.y = m.height - 1) →
        m.tile_at p ≠ Tile.Wall) ∧
    (∃ pd, m.tile_at pd = Tile.LadderDown ∧
      (∀ r, m.tile_at r = Tile.LadderDown → r = pd) ∧
      ¬(pd.x = 0 ∨ pd.x = m.width - 1 ∨ pd.y = 0 ∨ pd.y = m.height - 1) ∧
      (d = 0 → ∀ r, m.tile_at r ≠ Tile.LadderUp) ∧
      (0 < d → ∃ pu, m.tile_at pu = Tile.LadderUp ∧
        (∀ r, m.tile_at r = Tile.LadderUp → r = pu) ∧
        ¬(pu.x = 0 ∨ pu.x = m.width - 1 ∨ pu.y = 0 ∨ pu.y = m.height - 1) ∧
        pu ≠ pd)) := by
  have hg := Map.new_good d gen m h
  obtain ⟨hWlo, hWhi, hHlo, hHhi, hout, hwall, hwalk, hdown, hup0, huppos⟩ := hg
  have hg' := Map.new_good d gen m h
  refine ⟨?_, ?_, ?_⟩
  · intro p hx hy hb
    exact hwall p ⟨hx, hy⟩ hb
  · intro p hx hy hb
    rcases hwalk p ⟨hx, hy⟩ hb with h1 | h1 | h1 <;> rw [h1] <;> decide
  · obtain ⟨pd, hfindD, htileD, huniqD⟩ := hdown
    have hpdPos := goodMap_ladder_pos d m hg' pd Tile.LadderDown htileD
      (by decide) (by decide)
    refine ⟨pd, htileD, huniqD, hpdPos.2, ?_, ?_⟩
    · intro hd0
      exact (hup0 hd0).1
    · intro hdpos
      obtain ⟨pu, hfindU, htileU, huniqU⟩ := huppos hdpos
      have hpuPos := goodMap_ladder_pos d m hg' pu Tile.LadderUp htileU
        (by decide) (by decide)
      refine ⟨pu, htileU, huniqU, hpuPos.2, ?_⟩
      intro hc
      rw [hc] at htileU
      rw [htileU] at htileD
      exact Tile.noConfusion htileD

theorem C3_floor_invariant_witness :
    Map.new 0 genC = some mC0 ∧ mC0.tile_at ⟨0, 0⟩ = Tile.Wall :=
  ⟨by decide,
    (C3_floor_invariant 0 genC mC0 (by decide)).1 ⟨0, 0⟩ (by decide) (by decide)
      (by decide)⟩

/- Case-analysis lemmas for `Game::move_to`. -/

theorem move_to_wall (g : Game) (dest : Position) (gen : Gen) (M : Map)
    (hM : g.maps[g.floor]? = some M) (ht : M.tile_at dest = Tile.Wall) :
    g.move_to dest gen = some g := by
  simp only [Game.move_to, hM, ht]

theorem move_to_walkable (g : Game) (dest : Position) (gen : Gen) (M : Map)
    (t : Tile) (hM : g.maps[g.floor]? = some M) (ht : M.tile_at dest = t)
    (h1 : t ≠ Tile.LadderDown) (h2 : t ≠ Tile.LadderUp) (h3 : t ≠ Tile.Wall) :
    g.move_to dest gen = some ⟨g.floor, g.maps, dest⟩ := by
  cases t
  case Wall => exact absurd rfl h3
  case LadderUp => exact absurd rfl h2
  case LadderDown => exact absurd rfl h1
  all_goals simp only [Game.move_to, hM, ht]

theorem move_to_down_genfail (g : Game) (dest : Position) (gen : Gen) (M : Map)
    (hM : g.maps[g.floor]? = some M) (ht : M.tile_at dest = Tile.LadderDown)
    (heq : g.floor + 1 = g.maps.length)
    (hnew : Map.new (g.floor + 1) gen = none) :
    g.move_to dest gen = none := by
  simp only [Game.move_to, hM, ht, if_pos heq, hnew, Option.map_none']

theorem move_to_down_new (g : Game) (dest : Position) (gen : Gen) (M nm : Map)
    (pu : Position) (hM : g.maps[g.floor]? = some M)
    (ht : M.tile_at dest = Tile.LadderDown)
    (heq : g.floor + 1 = g.maps.length)
    (hnew : Map.new (g.floor + 1) gen = some nm)
    (hfind : nm.find_tile Tile.LadderUp = some pu) :
    g.move_to dest gen = some ⟨g.floor + 1, g.maps ++ [nm], pu⟩ := by
  have hidx : (g.maps ++ [nm])[g.floor + 1]? = some nm := by
    rw [List.getElem?_append, if_neg (by omega),
      show g.floor + 1 - g.maps.length = 0 by omega]
    rfl
  simp only [Game.move_to, hM, ht, if_pos heq, hnew, Option.map_some', hidx, hfind]

theorem move_to_down_new_findfail (g : Game) (dest : Position) (gen : Gen)
    (M nm : Map) (hM : g.maps[g.floor]? = some M)
    (ht : M.tile_at dest = Tile.LadderDown)
    (heq : g.floor + 1 = g.maps.length)
    (hnew : Map.new (g.floor + 1) gen = some nm)
    (hfind : nm.find_tile Tile.LadderUp = none) :
    g.move_to dest gen = none := by
  have hidx : (g.maps ++ [nm])[g.floor + 1]? = some nm := by
    rw [List.getElem?_append, if_neg (by omega),
      show g.floor + 1 - g.maps.length = 0 by omega]
    rfl
  simp only [Game.move_to, hM, ht, if_pos heq, hnew, Option.map_some', hidx, hfind]

theorem move_to_down_existing (g : Game) (dest : Position) (gen : Gen)
    (M m2 : Map) (pu : Position) (hM : g.maps[g.floor]? = some M)
    (ht : M.tile_at dest = Tile.LadderDown)
    (hne : ¬g.floor + 1 = g.maps.length)
    (hm2 : g.maps[g.floor + 1]? = some m2)
    (hfind : m2.find_tile Tile.LadderUp = some pu) :
    g.move_to dest gen = some ⟨g.floor + 1, g.maps, pu⟩ := by
  simp only [Game.move_to, hM, ht, if_neg hne, hm2, hfind]

theorem move_to_down_existing_findfail (g : Game) (dest : Position) (gen : Gen)
    (M m2 : Map) (hM : g.maps[g.floor]? = some M)
    (ht : M.tile_at dest = Tile.LadderDown)
    (hne : ¬g.floor + 1 = g.maps.length)
    (hm2 : g.maps[g.floor + 1]? = some m2)
    (hfind : m2.find_tile Tile.LadderUp = none) :
    g.move_to dest gen = none := by
  simp only [Game.move_to, hM, ht, if_neg hne, hm2, hfind]

theorem move_to_up_zero (g : Game) (dest : Position) (gen : Gen) (M : Map)
    (hM : g.maps[g.floor]? = some M) (ht : M.tile_at dest = Tile.LadderUp)
    (h0 : g.floor = 0) : g.move_to dest gen = none := by
  simp only [Game.move_to, hM, ht, if_pos h0]

theorem move_to_up_succ (g : Game) (dest : Position) (gen : Gen) (M m2 : Map)
    (pd : Position) (hM : g.maps[g.floor]? = some M)
    (ht : M.tile_at dest = Tile.LadderUp) (h0 : ¬g.floor = 0)
    (hm2 : g.maps[g.floor - 1]? = some m2)
    (hfind : m2.find_tile Tile.LadderDown = some pd) :
    g.move_to dest gen = some ⟨g.floor - 1, g.maps, pd⟩ := by
  simp only [Game.move_to, hM, ht, if_neg h0, hm2, hfind]

theorem move_to_up_findfail (g : Game) (dest : Position) (gen : Gen) (M m2 : Map)
    (hM : g.maps[g.floor]? = some M)
    (ht : M.tile_at dest = Tile.LadderUp) (h0 : ¬g.floor = 0)
    (hm2 : g.maps[g.floor - 1]? = some m2)
    (hfind : m2.find_tile Tile.LadderDown = none) :
    g.move_to dest gen = none := by
  simp only [Game.move_to, hM, ht, if_neg h0, hm2, hfind]

theorem getElem?_some_lt (l : List Map) (i : Nat) (a : Map)
    (h : l[i]? = some a) : i < l.length := by
  by_contra hc
  rw [List.getElem?_eq_none (by omega)] at h
  exact Option.noConfusion h

theorem move_to_down_inv (g : Game) (dest : Position) (gen : Gen) (g' : Game)
    (M : Map) (hM : g.maps[g.floor]? = some M)
    (ht : M.tile_at dest = Tile.LadderDown)
    (h : g.move_to dest gen = some g') :
    g'.floor = g.floor + 1 ∧
    (∃ m2, g'.maps[g.floor + 1]? = some m2 ∧
      m2.find_tile Tile.LadderUp = some g'.character_position) ∧
    (¬g.floor + 1 = g.maps.length → g'.maps = g.maps) ∧
    (g.floor + 1 = g.maps.length →
      ∃ nm, Map.new (g.floor + 1) gen = some nm ∧ g'.maps = g.maps ++ [nm]) := by
  by_cases hnext : g.floor + 1 = g.maps.length
  · cases hnew : Map.new (g.floor + 1) gen with
    | none =>
      rw [move_to_down_genfail g dest gen M hM ht hnext hnew] at h
      exact Option.noConfusion h
    | some nm =>
      cases hfind : nm.find_tile Tile.LadderUp with
      | none =>
        rw [move_to_down_new_findfail g dest gen M nm hM ht hnext hnew hfind] at h
        exact Option.noConfusion h
      | some pu =>
        rw [move_to_down_new g dest gen M nm pu hM ht hnext hnew hfind] at h
        obtain rfl := Option.some.inj h
        refine ⟨rfl, ⟨nm, ?_, hfind⟩, fun hc => absurd hnext hc,
          fun _ => ⟨nm, rfl, rfl⟩⟩
        rw [List.getElem?_append, if_neg (by omega),
          show g.floor + 1 - g.maps.length = 0 by omega]
        rfl
  · have hlt : g.floor + 1 < g.maps.length := by
      have := getElem?_some_lt _ _ _ hM
      omega
    obtain ⟨m2, hm2⟩ : ∃ m2, g.maps[g.floor + 1]? = some m2 :=
      ⟨_, List.getElem?_eq_getElem hlt⟩
    cases hfind : m2.find_tile Tile.LadderUp with
    | none =>
      rw [move_to_down_existing_findfail g dest gen M m2 hM ht hnext hm2 hfind] at h
      exact Option.noConfusion h
    | some pu =>
      rw [move_to_down_existing g dest gen M m2 pu hM ht hnext hm2 hfind] at h
      obtain rfl := Option.some.inj h
      exact ⟨rfl, ⟨m2, hm2, hfind⟩, fun _ => rfl, fun hc => absurd hc hnext⟩

theorem move_to_up_inv (g : Game) (dest : Position) (gen : Gen) (g' : Game)
    (M : Map) (hM : g.maps[g.floor]? = some M)
    (ht : M.tile_at dest = Tile.LadderUp)
    (h : g.move_to dest gen = some g') :
    ¬g.floor = 0 ∧ g'.floor = g.floor - 1 ∧ g'.maps = g.maps ∧
    ∃ m2, g.maps[g.floor - 1]? = some m2 ∧
      m2.find_tile Tile.LadderDown = some g'.character_position := by
  by_cases h0 : g.floor = 0
  · rw [move_to_up_zero g dest gen M hM ht h0] at h
    exact Option.noConfusion h
  · have hlt : g.floor - 1 < g.maps.length := by
      have := getElem?_some_lt _ _ _ hM
      omega
    obtain ⟨m2, hm2⟩ : ∃ m2, g.maps[g.floor - 1]? = some m2 :=
      ⟨_, List.getElem?_eq_getElem hlt⟩
    cases hfind : m2.find_tile Tile.LadderDown with
    | none =>
      rw [move_to_up_findfail g dest gen M m2 hM ht h0 hm2 hfind] at h
      exact Option.noConfusion h
    | some pd =>
      rw [move_to_up_succ g dest gen M m2 pd hM ht h0 hm2 hfind] at h
      obtain rfl := Option.some.inj h
      exact ⟨h0, rfl, rfl, m2, hm2, hfind⟩

theorem move_to_good (g : Game) (dest : Position) (gen : Gen) (g' : Game)
    (hg : g.Good) (M : Map) (hM : g.maps[g.floor]? = some M)
    (hdx : dest.x < M.width) (hdy : dest.y < M.height)
    (h : g.move_to dest gen = some g') : g'.Good := by
  obtain ⟨hflen, hmaps, M0, hM0, hint0⟩ := hg
  have hMM : M0 = M := Option.some.inj (hM0.symm.trans hM)
  have hint : M.Interior g.character_position := hMM ▸ hint0
  have hMgood := hmaps _ _ hM
  cases htile : M.tile_at dest with
  | Wall =>
    rw [move_to_wall g dest gen M hM htile] at h
    obtain rfl := Option.some.inj h
    exact ⟨hflen, hmaps, M, hM, hint⟩
  | Ground =>
    rw [move_to_walkable g dest gen M Tile.Ground hM htile (by decide) (by decide)
      (by decide)] at h
    obtain rfl := Option.some.inj h
    refine ⟨hflen, hmaps, M, hM, ?_⟩
    have hpos := goodMap_ladder_pos _ M hMgood dest Tile.Ground htile (by decide)
      (by decide)
    exact goodMap_interior _ M hMgood dest hpos.1 hpos.2
  | Character =>
    exfalso
    obtain ⟨-, -, -, -, hout, hwall, hwalk, -, -, -⟩ := hMgood
    by_cases hb : M.OnBorder dest
    · have h1 := hwall dest ⟨hdx, hdy⟩ hb
      rw [htile] at h1
      exact Tile.noConfusion h1
    · rcases hwalk dest ⟨hdx, hdy⟩ hb with h1 | h1 | h1 <;>
        (rw [htile] at h1; exact Tile.noConfusion h1)
  | Empty =>
    exfalso
    obtain ⟨-, -, -, -, hout, hwall, hwalk, -, -, -⟩ := hMgood
    by_cases hb : M.OnBorder dest
    · have h1 := hwall dest ⟨hdx, hdy⟩ hb
      rw [htile] at h1
      exact Tile.noConfusion h1
    · rcases hwalk dest ⟨hdx, hdy⟩ hb with h1 | h1 | h1 <;>
        (rw [htile] at h1; exact Tile.noConfusion h1)
  | LadderDown =>
    obtain ⟨hfl', ⟨m2, hm2', hfind⟩, hkeep, hpush⟩ :=
      move_to_down_inv g dest gen g' M hM htile h
    have hmaps' : ∀ d md, g'.maps[d]? = some md → Map.GoodMap d md := by
      by_cases hnext : g.floor + 1 = g.maps.length
      · obtain ⟨nm, hnew, he⟩ := hpush hnext
        have hnmGood := Map.new_good _ gen nm hnew
        intro d md hd
        rw [he, List.getElem?_append] at hd
        by_cases hdlt : d < g.maps.length
        · rw [if_pos hdlt] at hd
          exact hmaps d md hd
        · rw [if_neg hdlt] at hd
          cases hdk : d - g.maps.length with
          | zero =>
            rw [hdk] at hd
            obtain rfl : nm = md := Option.some.inj hd
            rw [show d = g.floor + 1 by omega]
            exact hnmGood
          | succ k =>
            rw [hdk] at hd
            exact absurd hd (by simp)
      · rw [hkeep hnext]
        exact hmaps
    have hm2good : Map.GoodMap (g.floor + 1) m2 := hmaps' _ _ hm2'
    obtain ⟨-, -, -, -, -, -, -, -, -, hup⟩ := hm2good
    obtain ⟨pu, hfindU, htileU, -⟩ := hup (by omega)
    have hposUp : g'.character_position = pu := by
      rw [hfind] at hfindU
      exact Option.some.inj hfindU
    have hint' : m2.Interior g'.character_position := by
      rw [hposUp]
      have hpos := goodMap_ladder_pos _ m2 (hmaps' _ _ hm2') pu Tile.LadderUp
        htileU (by decide) (by decide)
      exact goodMap_interior _ m2 (hmaps' _ _ hm2') pu hpos.1 hpos.2
    have hlen' : g'.floor < g'.maps.length := by
      rw [hfl']
      exact getElem?_some_lt _ _ _ hm2'
    refine ⟨hlen', hmaps', m2, ?_, hint'⟩
    rw [hfl']
    exact hm2'
  | LadderUp =>
    obtain ⟨h0, hfl', hsame, m2, hm2, hfind⟩ :=
      move_to_up_inv g dest gen g' M hM htile h
    have hm2good : Map.GoodMap (g.floor - 1) m2 := hmaps _ _ hm2
    obtain ⟨-, -, -, -, -, -, -, hdownEx, -, -⟩ := hm2good
    obtain ⟨pd, hfindD, htileD, -⟩ := hdownEx
    have hposD : g'.character_position = pd := by
      rw [hfind] at hfindD
      exact Option.some.inj hfindD
    have hint' : m2.Interior g'.character_position := by
      rw [hposD]
      have hpos := goodMap_ladder_pos _ m2 (hmaps _ _ hm2) pd Tile.LadderDown
        htileD (by decide) (by decide)
      exact goodMap_interior _ m2 (hmaps _ _ hm2) pd hpos.1 hpos.2
    refine ⟨?_, ?_, m2, ?_, hint'⟩
    · rw [hfl', hsame]
      have := getElem?_some_lt _ _ _ hM
      omega
    · rw [hsame]
      exact hmaps
    · rw [hfl', hsame]
      exact hm2

theorem wrapSub_one_eq (y : Nat) (h1 : 1 ≤ y) (h2 : y < 65536) :
    wrapSub y 1 = y - 1 := by
  unfold wrapSub
  omega

theorem wrapAdd_one_eq (y : Nat) (h2 : y + 1 < 65536) : wrapAdd y 1 = y + 1 := by
  unfold wrapAdd
  omega

theorem good_dims (g : Game) (hg : g.Good) (M : Map)
    (hM : g.maps[g.floor]? = some M) :
    M.width ≤ 100 ∧ M.height ≤ 50 ∧
    1 ≤ g.character_position.x ∧ g.character_position.x + 1 < M.width ∧
    1 ≤ g.character_position.y ∧ g.character_position.y + 1 < M.height := by
  obtain ⟨hflen, hmaps, M0, hM0, hint0⟩ := hg
  have hMM : M0 = M := Option.some.inj (hM0.symm.trans hM)
  have hint : M.Interior g.character_position := hMM ▸ hint0
  obtain ⟨-, hWhi, -, hHhi, -, -, -, -, -, -⟩ := hmaps _ _ hM
  unfold Map.MAX_WIDTH at hWhi
  unfold Map.MAX_HEIGHT at hHhi
  obtain ⟨h1, h2, h3, h4⟩ := hint
  exact ⟨hWhi, hHhi, h1, h2, h3, h4⟩

theorem move_up_good (g : Game) (gen : Gen) (g' : Game) (hg : g.Good)
    (h : g.move_up gen = some g') : g'.Good := by
  obtain ⟨M, hM⟩ : ∃ M, g.maps[g.floor]? = some M :=
    ⟨_, List.getElem?_eq_getElem hg.1⟩
  obtain ⟨hW, hH, hx1, hx2, hy1, hy2⟩ := good_dims g hg M hM
  unfold Game.move_up at h
  rw [wrapSub_one_eq _ hy1 (by omega)] at h
  exact move_to_good g ⟨g.character_position.x, g.character_position.y - 1⟩ gen
    g' hg M hM (show g.character_position.x < M.width by omega)
    (show g.character_position.y - 1 < M.height by omega) h

theorem move_down_good (g : Game) (gen : Gen) (g' : Game) (hg : g.Good)
    (h : g.move_down gen = some g') : g'.Good := by
  obtain ⟨M, hM⟩ : ∃ M, g.maps[g.floor]? = some M :=
    ⟨_, List.getElem?_eq_getElem hg.1⟩
  obtain ⟨hW, hH, hx1, hx2, hy1, hy2⟩ := good_dims g hg M hM
  unfold Game.move_down at h
  rw [wrapAdd_one_eq _ (by omega)] at h
  exact move_to_good g ⟨g.character_position.x, g.character_position.y + 1⟩ gen
    g' hg M hM (show g.character_position.x < M.width by omega)
    (show g.character_position.y + 1 < M.height by omega) h

theorem move_left_good (g : Game) (gen : Gen) (g' : Game) (hg : g.Good)
    (h : g.move_left gen = some g') : g'.Good := by
  obtain ⟨M, hM⟩ : ∃ M, g.maps[g.floor]? = some M :=
    ⟨_, List.getElem?_eq_getElem hg.1⟩
  obtain ⟨hW, hH, hx1, hx2, hy1, hy2⟩ := good_dims g hg M hM
  unfold Game.move_left at h
  rw [wrapSub_one_eq _ hx1 (by omega)] at h
  exact move_to_good g ⟨g.character_position.x - 1, g.character_position.y⟩ gen
    g' hg M hM (show g.character_position.x - 1 < M.width by omega)
    (show g.character_position.y < M.height by omega) h

theorem move_right_good (g : Game) (gen : Gen) (g' : Game) (hg : g.Good)
    (h : g.move_right gen = some g') : g'.Good := by
  obtain ⟨M, hM⟩ : ∃ M, g.maps[g.floor]? = some M :=
    ⟨_, List.getElem?_eq_getElem hg.1⟩
  obtain ⟨hW, hH, hx1, hx2, hy1, hy2⟩ := good_dims g hg M hM
  unfold Game.move_right at h
  rw [wrapAdd_one_eq _ (by omega)] at h
  exact move_to_good g ⟨g.character_position.x + 1, g.character_position.y⟩ gen
    g' hg M hM (show g.character_position.x + 1 < M.width by omega)
    (show g.character_position.y < M.height by omega) h

theorem new_game_good (gen : Gen) (posSeeds : List Nat) (g : Game)
    (h : Game.new gen posSeeds = some g) : g.Good := by
  simp only [Game.new] at h
  split at h
  · exact Option.noConfusion h
  · rename_i m hm
    split at h
    · exact Option.noConfusion h
    · rename_i p hp
      obtain rfl : (⟨0, [m], p⟩ : Game) = g := Option.some.inj h
      have hmGood := Map.new_good 0 gen m hm
      have hW0 : 0 < m.width := by
        obtain ⟨hWlo, -, -, -, -, -, -, -, -, -⟩ := hmGood
        unfold Map.MIN_WIDTH at hWlo
        omega
      have hH0 : 0 < m.height := by
        obtain ⟨-, -, hHlo, -, -, -, -, -, -, -⟩ := hmGood
        unfold Map.MIN_HEIGHT at hHlo
        omega
      obtain ⟨hlook, hpx, hpy⟩ := rand_spec m hW0 hH0 posSeeds p hp
      have htileG : m.tile_at p = Tile.Ground := by
        rcases hlook with h1 | h1
        · exfalso
          have hE : m.tile_at p = Tile.Empty := by
            unfold Map.tile_at
            rw [h1]
            rfl
          obtain ⟨-, -, -, -, -, hwall, hwalk, -, -, -⟩ := hmGood
          by_cases hb : m.OnBorder p
          · have h2 := hwall p ⟨hpx, hpy⟩ hb
            rw [hE] at h2
            exact Tile.noConfusion h2
          · rcases hwalk p ⟨hpx, hpy⟩ hb with h2 | h2 | h2 <;>
              (rw [hE] at h2; exact Tile.noConfusion h2)
        · unfold Map.tile_at
          rw [h1]
          rfl
      have hintp : m.Interior p := by
        have hpos := goodMap_ladder_pos 0 m hmGood p Tile.Ground htileG
          (by decide) (by decide)
        exact goodMap_interior 0 m hmGood p hpos.1 hpos.2
      refine ⟨Nat.zero_lt_one, ?_, m, rfl, hintp⟩
      intro d md hd
      cases d with
      | zero =>
        obtain rfl : m = md := Option.some.inj hd
        exact hmGood
      | succ k => exact absurd hd (by simp)

/-- The navigation invariant holds in every reachable state. -/
theorem reachable_good (g : Game) (h : g.Reachable) : g.Good := by
  induction h with
  | init gen s g0 hnew => exact new_game_good gen s g0 hnew
  | up g0 gen g' hr hmv ih => exact move_up_good g0 gen g' ih hmv
  | down g0 gen g' hr hmv ih => exact move_down_good g0 gen g' ih hmv
  | left g0 gen g' hr hmv ih => exact move_left_good g0 gen g' ih hmv
  | right g0 gen g' hr hmv ih => exact move_right_good g0 gen g' ih hmv

/- Claim theorems about the navigation state machine. -/

/-- C4.  In every reachable state the player's position lies within the
    current floor's bounds (coordinates are in-range naturals, so they are
    non-negative and no wrapped value), the tile stored at the player's
    position is never `Wall`, and a move whose destination tile is `Wall`
    leaves the whole state unchanged. -/
theorem C4_never_on_wall (g : Game) (h : g.Reachable) (M : Map)
    (hM : g.maps[g.floor]? = some M) :
    g.character_position.x < M.width ∧ g.character_position.y < M.height ∧
    M.tile_at g.character_position ≠ Tile.Wall ∧
    ∀ (dest : Position) (gen : Gen), M.tile_at dest = Tile.Wall →
      g.move_to dest gen = some g := by
  have hg := reachable_good g h
  obtain ⟨hflen, hmaps, M0, hM0, hint0⟩ := hg
  have hMM : M0 = M := Option.some.inj (hM0.symm.trans hM)
  have hint : M.Interior g.character_position := hMM ▸ hint0
  obtain ⟨hx1, hx2, hy1, hy2⟩ := hint
  refine ⟨by omega, by omega, ?_, ?_⟩
  · obtain ⟨-, -, -, -, -, -, hwalk, -, -, -⟩ := hmaps _ _ hM
    have hnb : ¬M.OnBorder g.character_position := by
      unfold Map.OnBorder
      omega
    rcases hwalk g.character_position ⟨by omega, by omega⟩ hnb with h1 | h1 | h1 <;>
      (rw [h1]; decide)
  · intro dest gen ht
    exact move_to_wall g dest gen M hM ht

theorem C4_never_on_wall_witness :
    gameC.maps[gameC.floor]? = some mC0 ∧
    mC0.tile_at gameC.character_position ≠ Tile.Wall :=
  ⟨by decide,
    (C4_never_on_wall gameC (Game.Reachable.init genC [3, 3] gameC (by decide))
      mC0 (by decide)).2.2.1⟩

/-- C10.  In every reachable state the player stands strictly inside the
    current floor's border: `1 ≤ x ≤ width - 2` and `1 ≤ y ≤ height - 2`.
    This is the invariant that keeps the unchecked coordinate decrements of
    move Up / move Left from underflowing in reachable states. -/
theorem C10_interior_invariant (g : Game) (h : g.Reachable) (M : Map)
    (hM : g.maps[g.floor]? = some M) :
    1 ≤ g.character_position.x ∧ g.character_position.x ≤ M.width - 2 ∧
    1 ≤ g.character_position.y ∧ g.character_position.y ≤ M.height - 2 := by
  have hg := reachable_good g h
  obtain ⟨hflen, hmaps, M0, hM0, hint0⟩ := hg
  have hMM : M0 = M := Option.some.inj (hM0.symm.trans hM)
  have hint : M.Interior g.character_position := hMM ▸ hint0
  obtain ⟨hx1, hx2, hy1, hy2⟩ := hint
  omega

theorem C10_interior_invariant_witness :
    gameC.maps[gameC.floor]? = some mC0 ∧
    (1 ≤ gameC.character_position.x ∧
      gameC.character_position.x ≤ mC0.width - 2 ∧
      1 ≤ gameC.character_position.y ∧
      gameC.character_position.y ≤ mC0.height - 2) :=
  ⟨by decide,
    C10_interior_invariant gameC
      (Game.Reachable.init genC [3, 3] gameC (by decide)) mC0 (by decide)⟩

/-- C5.  Floors are generated lazily, exactly once.  First conjunct: from
    depth 0 with a single stored floor, stepping onto `LadderDown` appends
    exactly one newly generated floor (so `floors.length = 2`) and puts the
    player on that floor's `LadderUp` cell.  Second conjunct: descending to a
    depth whose floor already exists appends nothing and leaves every stored
    floor, ladders included, bit-for-bit identical. -/
theorem C5_lazy_generation :
    (∀ (g : Game) (dest : Position) (gen : Gen) (g2 : Game) (m0 : Map),
      g.floor = 0 → g.maps = [m0] → m0.tile_at dest = Tile.LadderDown →
      g.move_to dest gen = some g2 →
      g2.maps.length = 2 ∧
        ∃ m1, Map.new 1 gen = some m1 ∧ g2.maps = [m0, m1] ∧
          m1.find_tile Tile.LadderUp = some g2.character_position) ∧
    (∀ (g : Game) (dest : Position) (gen : Gen) (g2 : Game) (M : Map),
      g.maps[g.floor]? = some M → M.tile_at dest = Tile.LadderDown →
      g.floor + 1 < g.maps.length → g.move_to dest gen = some g2 →
      g2.maps = g.maps) := by
  constructor
  · intro g dest gen g2 m0 hfl hmaps0 htile h
    have hM : g.maps[g.floor]? = some m0 := by
      rw [hmaps0, hfl]
      rfl
    have heq : g.floor + 1 = g.maps.length := by
      rw [hmaps0, hfl]
      rfl
    obtain ⟨hfl', ⟨m2, hm2', hfind⟩, -, hpush⟩ :=
      move_to_down_inv g dest gen g2 m0 hM htile h
    obtain ⟨nm, hnew, he⟩ := hpush heq
    have hmapsEq : g2.maps = [m0, nm] := by
      rw [he, hmaps0]
      rfl
    have hm2nm : m2 = nm := by
      rw [hmapsEq, hfl] at hm2'
      exact (Option.some.inj hm2').symm
    refine ⟨by rw [hmapsEq]; rfl, nm, ?_, hmapsEq, ?_⟩
    · rw [hfl] at hnew
      exact hnew
    · rw [← hm2nm]
      exact hfind
  · intro g dest gen g2 M hM htile hlt h
    obtain ⟨-, -, hkeep, -⟩ := move_to_down_inv g dest gen g2 M hM htile h
    exact hkeep (by omega)

theorem C5_lazy_generation_witness :
    gameC.floor = 0 ∧ gameC.maps = [mC0] ∧
    gameC.move_to ⟨1, 1⟩ genC = some game1C ∧ game1C.maps.length = 2 :=
  ⟨by decide, by decide, by decide,
    (C5_lazy_generation.1 gameC ⟨1, 1⟩ genC game1C mC0 (by decide) (by decide)
      (by decide) (by decide)).1⟩

/-- C6.  Round trip.  First conjunct: a move that triggers the descend
    transition raises the depth by one, and any later move (from any state
    that still stores the original floor `M` at the original index and sits
    one level below it) that triggers the ascend transition restores the
    original depth and lands the player on `M`'s stored `LadderDown` cell.
    Second conjunct: the symmetric ascend-then-descend statement, landing on
    `M`'s stored `LadderUp` cell. -/
theorem C6_roundtrip :
    (∀ (g : Game) (dest : Position) (gen : Gen) (g1 : Game) (M : Map),
      g.maps[g.floor]? = some M → M.tile_at dest = Tile.LadderDown →
      g.move_to dest gen = some g1 →
      g1.floor = g.floor + 1 ∧
      ∀ (h2g : Game) (dest2 : Position) (gen2 : Gen) (h2 : Game) (N : Map),
        h2g.floor = g1.floor → h2g.maps[g.floor]? = some M →
        h2g.maps[h2g.floor]? = some N → N.tile_at dest2 = Tile.LadderUp →
        h2g.move_to dest2 gen2 = some h2 →
        h2.floor = g.floor ∧
          M.find_tile Tile.LadderDown = some h2.character_position) ∧
    (∀ (g : Game) (dest : Position) (gen : Gen) (g1 : Game) (M : Map),
      g.maps[g.floor]? = some M → M.tile_at dest = Tile.LadderUp →
      g.move_to dest gen = some g1 →
      g1.floor + 1 = g.floor ∧
      ∀ (h2g : Game) (dest2 : Position) (gen2 : Gen) (h2 : Game) (N : Map),
        h2g.floor = g1.floor → h2g.maps[g.floor]? = some M →
        h2g.maps[h2g.floor]? = some N → N.tile_at dest2 = Tile.LadderDown →
        h2g.move_to dest2 gen2 = some h2 →
        h2.floor = g.floor ∧
          M.find_tile Tile.LadderUp = some h2.character_position) := by
  constructor
  · intro g dest gen g1 M hM htile h
    obtain ⟨hfl', -, -, -⟩ := move_to_down_inv g dest gen g1 M hM htile h
    refine ⟨hfl', ?_⟩
    intro h2g dest2 gen2 h2 N hfl2 hMsame hN htile2 hmv2
    obtain ⟨h0, hfl2', hsame2, m2, hm2, hfind⟩ :=
      move_to_up_inv h2g dest2 gen2 h2 N hN htile2 hmv2
    have hidx : h2g.floor - 1 = g.floor := by omega
    rw [hidx] at hm2
    have hm2M : m2 = M := Option.some.inj (hm2.symm.trans hMsame)
    refine ⟨by omega, ?_⟩
    rw [← hm2M]
    exact hfind
  · intro g dest gen g1 M hM htile h
    obtain ⟨h0, hfl', hsame, -, -, -⟩ :=
      move_to_up_inv g dest gen g1 M hM htile h
    refine ⟨by omega, ?_⟩
    intro h2g dest2 gen2 h2 N hfl2 hMsame hN htile2 hmv2
    obtain ⟨hfl2', ⟨m2, hm2', hfind⟩, hkeep, -⟩ :=
      move_to_down_inv h2g dest2 gen2 h2 N hN htile2 hmv2
    have hlt : g.floor < h2g.maps.length := getElem?_some_lt _ _ _ hMsame
    have hmaps2 : h2.maps = h2g.maps := hkeep (by omega)
    have hidx : h2g.floor + 1 = g.floor := by omega
    rw [hmaps2, hidx] at hm2'
    have hm2M : m2 = M := Option.some.inj (hm2'.symm.trans hMsame)
    refine ⟨by omega, ?_⟩
    rw [← hm2M]
    exact hfind

theorem C6_roundtrip_witness :
    game1C.move_to ⟨2, 2⟩ genC = some game2C ∧ game2C.floor = gameC.floor ∧
    mC0.find_tile Tile.LadderDown = some game2C.character_position := by
  refine ⟨by decide, ?_⟩
  have hpart :=
    ((C6_roundtrip.1 gameC ⟨1, 1⟩ genC game1C mC0 (by decide) (by decide)
        (by decide)).2 game1C ⟨2, 2⟩ genC game2C mC1 rfl (by decide) (by decide)
      (by decide) (by decide))
  exact ⟨hpart.1, hpart.2⟩

/-- C7.  A single `move_to` call changes the depth by at most one, and a
    move whose destination tile is `LadderDown` (resp. `LadderUp`) lands the
    player on the position that `find_tile` reports for the matching ladder
    of the destination floor (the floor stored at the new index), never on a
    cell of the floor being left. -/
theorem C7_single_floor_change (g : Game) (dest : Position) (gen : Gen)
    (g' : Game) (M : Map) (hM : g.maps[g.floor]? = some M)
    (h : g.move_to dest gen = some g') :
    (g'.floor ≤ g.floor + 1 ∧ g.floor ≤ g'.floor + 1) ∧
    (M.tile_at dest = Tile.LadderDown →
      g'.floor = g.floor + 1 ∧
      ∃ m2, g'.maps[g'.floor]? = some m2 ∧
        m2.find_tile Tile.LadderUp = some g'.character_position) ∧
    (M.tile_at dest = Tile.LadderUp →
      g'.floor + 1 = g.floor ∧
      ∃ m2, g'.maps[g'.floor]? = some m2 ∧
        m2.find_tile Tile.LadderDown = some g'.character_position) := by
  cases htile : M.tile_at dest with
  | Wall =>
    rw [move_to_wall g dest gen M hM htile] at h
    obtain rfl := Option.some.inj h
    exact ⟨⟨Nat.le_succ _, Nat.le_succ _⟩, fun hc => absurd hc (by decide),
      fun hc => absurd hc (by decide)⟩
  | Ground =>
    rw [move_to_walkable g dest gen M Tile.Ground hM htile (by decide)
      (by decide) (by decide)] at h
    obtain rfl := Option.some.inj h
    exact ⟨⟨Nat.le_succ _, Nat.le_succ _⟩, fun hc => absurd hc (by decide),
      fun hc => absurd hc (by decide)⟩
  | Character =>
    rw [move_to_walkable g dest gen M Tile.Character hM htile (by decide)
      (by decide) (by decide)] at h
    obtain rfl := Option.some.inj h
    exact ⟨⟨Nat.le_succ _, Nat.le_succ _⟩, fun hc => absurd hc (by decide),
      fun hc => absurd hc (by decide)⟩
  | Empty =>
    rw [move_to_walkable g dest gen M Tile.Empty hM htile (by decide)
      (by decide) (by decide)] at h
    obtain rfl := Option.some.inj h
    exact ⟨⟨Nat.le_succ _, Nat.le_succ _⟩, fun hc => absurd hc (by decide),
      fun hc => absurd hc (by decide)⟩
  | LadderDown =>
    obtain ⟨hfl', ⟨m2, hm2', hfind⟩, -, -⟩ :=
      move_to_down_inv g dest gen g' M hM htile h
    refine ⟨⟨by omega, by omega⟩, fun hc => ⟨hfl', m2, ?_, hfind⟩,
      fun hc => absurd hc (by decide)⟩
    rw [hfl']
    exact hm2'
  | LadderUp =>
    obtain ⟨h0, hfl', hsame, m2, hm2, hfind⟩ :=
      move_to_up_inv g dest gen g' M hM htile h
    refine ⟨⟨by omega, by omega⟩, fun hc => absurd hc (by decide),
      fun hc => ⟨by omega, m2, ?_, hfind⟩⟩
    rw [hfl', hsame]
    exact hm2

theorem C7_single_floor_change_witness :
    gameC.move_to ⟨1, 1⟩ genC = some game1C ∧
    game1C.floor ≤ gameC.floor + 1 ∧ gameC.floor ≤ game1C.floor + 1 := by
  refine ⟨by decide, ?_⟩
  have hpart := (C7_single_floor_change gameC ⟨1, 1⟩ genC game1C mC0 (by decide)
    (by decide)).1
  exact hpart

/-- C9.  A ladder transition whose `find_tile` lookup fails aborts the move
    (the `expect` panics; no state with a corrupted position is produced),
    and under the floor invariant such a failure is unreachable: every
    ladder transition whose destination floor exists (or is generated
    successfully) completes. -/
theorem C9_missing_ladder_fatal (g : Game) (dest : Position) (gen : Gen)
    (M : Map) (hM : g.maps[g.floor]? = some M) :
    (∀ m2, M.tile_at dest = Tile.LadderDown → ¬g.floor + 1 = g.maps.length →
      g.maps[g.floor + 1]? = some m2 → m2.find_tile Tile.LadderUp = none →
      g.move_to dest gen = none) ∧
    (∀ m2, M.tile_at dest = Tile.LadderUp → ¬g.floor = 0 →
      g.maps[g.floor - 1]? = some m2 → m2.find_tile Tile.LadderDown = none →
      g.move_to dest gen = none) ∧
    (g.Good →
      (M.tile_at dest = Tile.LadderDown → ¬g.floor + 1 = g.maps.length →
        ∃ g', g.move_to dest gen = some g') ∧
      (M.tile_at dest = Tile.LadderDown → g.floor + 1 = g.maps.length →
        ∀ nm, Map.new (g.floor + 1) gen = some nm →
          ∃ g', g.move_to dest gen = some g') ∧
      (M.tile_at dest = Tile.LadderUp → ∃ g', g.move_to dest gen = some g')) := by
  refine ⟨?_, ?_, ?_⟩
  · intro m2 ht hne hm2 hfind
    exact move_to_down_existing_findfail g dest gen M m2 hM ht hne hm2 hfind
  · intro m2 ht h0 hm2 hfind
    exact move_to_up_findfail g dest gen M m2 hM ht h0 hm2 hfind
  · intro hg
    obtain ⟨hflen, hmaps, -⟩ := hg
    refine ⟨?_, ?_, ?_⟩
    · intro ht hne
      have hlt : g.floor + 1 < g.maps.length := by
        have := getElem?_some_lt _ _ _ hM
        omega
      obtain ⟨m2, hm2⟩ : ∃ m2, g.maps[g.floor + 1]? = some m2 :=
        ⟨_, List.getElem?_eq_getElem hlt⟩
      obtain ⟨-, -, -, -, -, -, -, -, -, hup⟩ := hmaps _ _ hm2
      obtain ⟨pu, hfindU, -, -⟩ := hup (by omega)
      exact ⟨_, move_to_down_existing g dest gen M m2 pu hM ht hne hm2 hfindU⟩
    · intro ht heq nm hnew
      obtain ⟨-, -, -, -, -, -, -, -, -, hup⟩ := Map.new_good _ gen nm hnew
      obtain ⟨pu, hfindU, -, -⟩ := hup (by omega)
      exact ⟨_, move_to_down_new g dest gen M nm pu hM ht heq hnew hfindU⟩
    · intro ht
      have h0 : ¬g.floor = 0 := by
        intro h0
        obtain ⟨-, -, -, -, -, -, -, -, hup0, -⟩ := hmaps _ _ hM
        exact (hup0 h0).1 dest ht
      have hlt : g.floor - 1 < g.maps.length := by
        have := getElem?_some_lt _ _ _ hM
        omega
      obtain ⟨m2, hm2⟩ : ∃ m2, g.maps[g.floor - 1]? = some m2 :=
        ⟨_, List.getElem?_eq_getElem hlt⟩
      obtain ⟨-, -, -, -, -, -, -, hdownEx, -, -⟩ := hmaps _ _ hm2
      obtain ⟨pd, hfindD, -, -⟩ := hdownEx
      exact ⟨_, move_to_up_succ g dest gen M m2 pd hM ht h0 hm2 hfindD⟩

theorem C9_missing_ladder_fatal_witness :
    mBad.find_tile Tile.LadderUp = none ∧
    gameBad.move_to ⟨1, 1⟩ genC = none :=
  ⟨by decide,
    (C9_missing_ladder_fatal gameBad ⟨1, 1⟩ genC mC0 (by decide)).1 mBad
      (by decide) (by decide) (by decide) (by decide)⟩
